import Mathlib

/-!
Verification development for the isolation-game backend.

The definitions below are a shallow embedding of the game engine
(src/backend/src/services/GameEngine.js) and of the experience recorder
(ExperienceReplay).  Boards are 7 by 7 grids of cell states; positions are
integer pairs exactly as in the JavaScript source, where a position is an
array [row, col] of numbers and may lie out of bounds.  Reading a cell out
of bounds yields `none` (JavaScript yields undefined, which compares false
against every cell constant); writing out of bounds is a no-op in the
embedding (the source never does it on the paths modelled here).
Timestamps and session identifiers are dropped: no modelled claim mentions
them.  The statistics counters and file persistence are outside the model;
`checkGameEnd` and `checkGameEndSimulation` act identically on the fields
carried here, so a single function stands for both.
-/

namespace Isolation

/-- Cell states of the 7 by 7 board: '.', '_', 'H', 'A' in the source. -/
inductive Cell where
  | empty
  | blocked
  | human
  | ai
deriving DecidableEq, Repr

/-- The two agents: 'H' and 'A' in the source. -/
inductive Player where
  | human
  | ai
deriving DecidableEq, Repr

/-- Session phases: 'starting', 'playing', 'ended' in the source. -/
inductive Phase where
  | starting
  | playing
  | ended
deriving DecidableEq, Repr

/-- Caller-visible errors thrown by the engine operations. -/
inductive GameError where
  | notFound
  | invalidState
  | positionOccupied
  | invalidMove
  | cannotUndoEnded
  | noMovesToUndo
  | noHumanMovesToUndo
deriving DecidableEq, Repr

/-- A board is a total assignment of cells to the 49 grid squares. -/
abbrev Board := Fin 7 → Fin 7 → Cell

/-- Positions are integer pairs [row, col], as in the source arrays. -/
abbrev Pos := Int × Int

/-- Read a cell; out-of-bounds reads give none (undefined in JavaScript). -/
def cellAt (b : Board) (r c : Int) : Option Cell :=
  if h : 0 ≤ r ∧ r < 7 ∧ 0 ≤ c ∧ c < 7 then
    some (b ⟨r.toNat, by omega⟩ ⟨c.toNat, by omega⟩)
  else
    none

/-- Write a cell; out-of-bounds writes are no-ops (never reached in the
modelled paths). -/
def setCell (b : Board) (r c : Int) (v : Cell) : Board :=
  fun i j => if ((i : Nat) : Int) = r ∧ ((j : Nat) : Int) = c then v else b i j

/-- The eight direction offsets, in the order listed in the constructor. -/
def directions : List (Int × Int) :=
  [(-1, 0), (1, 0), (0, -1), (0, 1), (-1, -1), (-1, 1), (1, -1), (1, 1)]

/-- GameEngine.isValidPosition. -/
def isValidPosition (row col : Int) : Bool :=
  decide (0 ≤ row) && decide (row < 7) && decide (0 ≤ col) && decide (col < 7)

/-- GameEngine.getValidMoves: the in-bounds empty cells among the eight
neighbour offsets of pos, in direction order. -/
def getValidMoves (b : Board) (pos : Pos) : List Pos :=
  directions.filterMap fun d =>
    let newRow := pos.1 + d.1
    let newCol := pos.2 + d.2
    if isValidPosition newRow newCol && decide (cellAt b newRow newCol = some Cell.empty) then
      some (newRow, newCol)
    else
      none

/-- getValidMoves lifted to a nullable position.  A null position never
occurs on a reachable call; the empty list records that no move is found
for an absent agent. -/
def getValidMovesOpt (b : Board) (pos : Option Pos) : List Pos :=
  match pos with
  | some p => getValidMoves b p
  | none => []

/-- One entry of moveHistory: acting player, source (null only in
principle), destination, and the board snapshot taken after the move.
The source field is named fromPos and the destination toPos because from
is a reserved word in Lean. -/
structure MoveRecord where
  player : Player
  fromPos : Option Pos
  toPos : Pos
  board : Board
deriving DecidableEq

/-- The session state: the fields of the game object that the claims
mention.  Identifier, owner, timestamps and the simulation flag are
dropped (the flag only routes around the statistics counters, which are
outside the model). -/
structure Game where
  board : Board
  humanPos : Option Pos
  aiPos : Option Pos
  currentPlayer : Player
  gamePhase : Phase
  moveHistory : List MoveRecord
  winner : Option Player
deriving DecidableEq

/-- GameEngine.initializeBoard: all cells empty. -/
def initializeBoard : Board := fun _ _ => Cell.empty

/-- GameEngine.createGame (the per-session fields). -/
def createGame : Game :=
  { board := initializeBoard
    humanPos := none
    aiPos := none
    currentPlayer := Player.human
    gamePhase := Phase.starting
    moveHistory := []
    winner := none }

/-- GameEngine.endGame restricted to the session fields (statistics and
recorder notification are outside the model). -/
def endGame (g : Game) (w : Player) : Game :=
  { g with gamePhase := Phase.ended, winner := some w }

/-- GameEngine.checkGameEnd (and checkGameEndSimulation, identical on the
embedded fields): the human side is tested first, then the software side. -/
def checkGameEnd (g : Game) : Game :=
  let humanMoves := getValidMovesOpt g.board g.humanPos
  let aiMoves := getValidMovesOpt g.board g.aiPos
  if humanMoves.length = 0 then endGame g Player.ai
  else if aiMoves.length = 0 then endGame g Player.human
  else g

/-- Marker written for a player. -/
def cellOf : Player → Cell
  | Player.human => Cell.human
  | Player.ai => Cell.ai

/-- The mutation part of GameEngine.movePlayer: block the vacated cell,
write the marker at the destination, update the moved agent's position,
append the move record. -/
def applyMove (g : Game) (player : Player) (newPos : Pos) : Game :=
  let oldPos := if player = Player.human then g.humanPos else g.aiPos
  let b1 := match oldPos with
    | some p => setCell g.board p.1 p.2 Cell.blocked
    | none => g.board
  let b2 := setCell b1 newPos.1 newPos.2 (cellOf player)
  { g with
    board := b2
    humanPos := if player = Player.human then some newPos else g.humanPos
    aiPos := if player = Player.human then g.aiPos else some newPos
    moveHistory := g.moveHistory ++ [⟨player, oldPos, newPos, b2⟩] }

/-- GameEngine.movePlayer: the mutation steps followed by the end-of-game
check that closes its body. -/
def movePlayer (g : Game) (player : Player) (newPos : Pos) : Game :=
  checkGameEnd (applyMove g player newPos)

/-- GameEngine.placeStartingPosition.  The software agent goes to the
centre when it is empty, otherwise to a pseudo-random legal neighbour of
the centre; randIdx abstracts the Math.random draw (reduced modulo the
number of candidates).  A thrown error is returned next to the state the
session holds at the throw, so that absence of partial mutation is a
provable statement rather than a modelling artifact. -/
def placeStartingPosition (g : Game) (row col : Int) (randIdx : Nat) :
    Game × Option GameError :=
  if g.gamePhase ≠ Phase.starting then (g, some GameError.invalidState)
  else if cellAt g.board row col ≠ some Cell.empty then
    (g, some GameError.positionOccupied)
  else
    let b1 := setCell g.board row col Cell.human
    let g1 := { g with board := b1, humanPos := some (row, col) }
    let g2 :=
      if cellAt g1.board 3 3 = some Cell.empty then
        { g1 with board := setCell g1.board 3 3 Cell.ai, aiPos := some ((3 : Int), (3 : Int)) }
      else
        let adjacentMoves := getValidMoves g1.board (3, 3)
        match adjacentMoves.get? (randIdx % adjacentMoves.length) with
        | some p => { g1 with board := setCell g1.board p.1 p.2 Cell.ai, aiPos := some p }
        | none => g1
    ({ g2 with gamePhase := Phase.playing, currentPlayer := Player.human }, none)

/-- GameEngine.makeHumanMove: phase and turn check, legality check, then
movePlayer and the hand-over to the software side.  The recorder call is
modelled separately (recordMove below). -/
def makeHumanMove (g : Game) (row col : Int) : Game × Option GameError :=
  if g.gamePhase ≠ Phase.playing ∨ g.currentPlayer ≠ Player.human then
    (g, some GameError.invalidState)
  else if ¬ ((row, col) ∈ getValidMovesOpt g.board g.humanPos) then
    (g, some GameError.invalidMove)
  else
    let g1 := movePlayer g Player.human (row, col)
    ({ g1 with currentPlayer := Player.ai }, none)

/-- Row-major scan for the last cell holding the given marker, as the
position-finding loop of heuristicEvaluation leaves the latest match in
its local variable. -/
def findPlayerPos (b : Board) (target : Cell) : Option Pos :=
  (List.range 7).foldl
    (fun acc row =>
      (List.range 7).foldl
        (fun acc2 col =>
          if cellAt b (row : Int) (col : Int) = some target then
            some ((row : Int), (col : Int))
          else acc2)
        acc)
    none

/-- GameEngine.heuristicEvaluation: legal-move counts of the two agents,
combined into the software side's success ratio. -/
def heuristicEvaluation (b : Board) : ℚ :=
  let humanPos := findPlayerPos b Cell.human
  let aiPos := findPlayerPos b Cell.ai
  let humanMoves : Nat := match humanPos with
    | some p => (getValidMoves b p).length
    | none => 0
  let aiMoves : Nat := match aiPos with
    | some p => (getValidMoves b p).length
    | none => 0
  if aiMoves = 0 then 0
  else if humanMoves = 0 then 1
  else (aiMoves : ℚ) / ((humanMoves : ℚ) + (aiMoves : ℚ))

/-- Outcome of one learned-strategy call, abstracting the race between the
network promise and the 50 ms timer: the promise may resolve with a value
in time, reject, or lose the race. -/
inductive NNOutcome where
  | value (x : ℚ)
  | errored
  | timedOut

/-- GameEngine.evaluatePosition: the learned strategy is consulted only
when loaded, and any rejection or timeout is replaced by the heuristic
result for that single call. -/
def evaluatePosition (isLoaded : Bool) (outcome : NNOutcome) (b : Board) : ℚ :=
  if isLoaded = false then heuristicEvaluation b
  else
    match outcome with
    | NNOutcome.value x => x
    | NNOutcome.errored => heuristicEvaluation b
    | NNOutcome.timedOut => heuristicEvaluation b

/-- Oracle for one enhancedMCTS call: evalFn gives the value produced by
the k-th evaluator invocation (this subsumes every board-determined
evaluator, since the invocation order is fixed), and timeUp gives the
result of the k-th comparison of the elapsed wall clock against the time
limit. -/
structure MCTSOracle where
  evalFn : Nat → ℚ
  timeUp : Nat → Bool

/-- Running state of the enhancedMCTS loops.  Scores and visit counts are
keyed by the candidate move itself, mirroring the JSON-stringified move
keys of the source; sims counts evaluator invocations and tick counts
clock reads. -/
structure MCTSState where
  scores : Pos → ℚ
  visits : Pos → ℕ
  sims : Nat
  tick : Nat

/-- All-zero state, as initialized before the simulation loop. -/
def initMCTSState : MCTSState :=
  { scores := fun _ => 0, visits := fun _ => 0, sims := 0, tick := 0 }

/-- The inner for-loop of enhancedMCTS: evaluate each remaining candidate
once, and break out of the round (only) when the clock check after an
evaluation reports the deadline passed. -/
def runRound (o : MCTSOracle) : List Pos → MCTSState → MCTSState
  | [], s => s
  | m :: rest, s =>
    let v := o.evalFn s.sims
    let s1 : MCTSState :=
      { scores := fun k => if k = m then s.scores k + v else s.scores k
        visits := fun k => if k = m then s.visits k + 1 else s.visits k
        sims := s.sims + 1
        tick := s.tick }
    let timeHit := o.timeUp s1.tick
    let s2 := { s1 with tick := s1.tick + 1 }
    if timeHit then s2 else runRound o rest s2

/-- The while-loop of enhancedMCTS.  The condition reads the clock and
compares the running invocation count against the cap; a full round then
runs, followed by the early-exit test on the cap.  The fuel argument only
makes the recursion structural; cap + 1 units are more than the loop can
consume whenever the candidate list is nonempty. -/
def runMCTS (o : MCTSOracle) (moves : List Pos) (cap : Nat) :
    Nat → MCTSState → MCTSState
  | 0, s => s
  | fuel + 1, s =>
    let timeHit := o.timeUp s.tick
    let s0 := { s with tick := s.tick + 1 }
    if timeHit || decide (cap ≤ s0.sims) then s0
    else
      let s1 := runRound o moves s0
      if decide (cap ≤ s1.sims) then s1
      else runMCTS o moves cap fuel s1

/-- Final loop state of one enhancedMCTS call. -/
def mctsFinal (o : MCTSOracle) (moves : List Pos) (cap : Nat) : MCTSState :=
  runMCTS o moves cap (cap + 1) initMCTSState

/-- Mean score of a candidate: running sum over visit count, zero visits
scoring 0 (the winRate expression of the selection loop). -/
def winRate (s : MCTSState) (m : Pos) : ℚ :=
  if 0 < s.visits m then s.scores m / ((s.visits m : ℚ)) else 0

/-- The selection loop of enhancedMCTS, carrying bestMove and bestScore;
a candidate replaces the incumbent only when its mean is strictly
greater. -/
def selGo (wr : Pos → ℚ) : List Pos → Pos → ℚ → Pos
  | [], best, _ => best
  | m :: rest, best, bestScore =>
    if bestScore < wr m then selGo wr rest m (wr m) else selGo wr rest best bestScore

/-- Selection over the whole candidate list: bestMove starts at the first
candidate and bestScore at 0.  The default for an empty list is never
used (enhancedMCTS is only called with a nonempty list). -/
def selectBest (wr : Pos → ℚ) (moves : List Pos) : Pos :=
  selGo wr moves (moves.headD ((0 : Int), (0 : Int))) 0

/-- GameEngine.enhancedMCTS: run the bounded evaluation loop, then pick
the candidate with the strictly greatest mean score. -/
def enhancedMCTS (o : MCTSOracle) (moves : List Pos) (cap : Nat) : Pos :=
  selectBest (winRate (mctsFinal o moves cap)) moves

/-- GameEngine.makeAIMove: phase and turn check; with no legal move the
game ends at once in the human's favour, otherwise the selected move is
committed exactly like a human move, mirrored. -/
def makeAIMove (g : Game) (o : MCTSOracle) (cap : Nat) : Game × Option GameError :=
  if g.gamePhase ≠ Phase.playing ∨ g.currentPlayer ≠ Player.ai then
    (g, some GameError.invalidState)
  else
    let validMoves := getValidMovesOpt g.board g.aiPos
    if validMoves.length = 0 then (endGame g Player.human, none)
    else
      let bestMove := enhancedMCTS o validMoves cap
      let g1 := movePlayer g Player.ai bestMove
      ({ g1 with currentPlayer := Player.human }, none)

/-- Index (from the front) and content of the last history record made by
the human agent, as found by the backwards search in undoLastMove. -/
def lastHuman : List MoveRecord → Option (Nat × MoveRecord)
  | [] => none
  | r :: rest =>
    match lastHuman rest with
    | some (i, m) => some (i + 1, m)
    | none => if r.player = Player.human then some (0, r) else none

/-- GameEngine.undoLastMove.  The pop loop removes length − i records,
which already includes the record at index i itself, and the following
unconditional pop removes one further record (a pop on an empty array is
a no-op).  An empty remaining history resets the session to the starting
phase; otherwise the found human record is reverted on the board. -/
def undoLastMove (g : Game) : Game × Option GameError :=
  if g.gamePhase = Phase.ended then (g, some GameError.cannotUndoEnded)
  else if g.moveHistory.length = 0 then (g, some GameError.noMovesToUndo)
  else
    match lastHuman g.moveHistory with
    | none => (g, some GameError.noHumanMovesToUndo)
    | some (i, lastHumanMove) =>
      let hist1 := g.moveHistory.take i
      let hist2 := hist1.dropLast
      if hist2.length = 0 then
        ({ g with
            gamePhase := Phase.starting
            currentPlayer := Player.human
            humanPos := none
            aiPos := none
            winner := none
            board := initializeBoard
            moveHistory := hist2 }, none)
      else
        let b1 := setCell g.board lastHumanMove.toPos.1 lastHumanMove.toPos.2 Cell.empty
        let b2 := match lastHumanMove.fromPos with
          | some p => setCell b1 p.1 p.2 (cellOf lastHumanMove.player)
          | none => b1
        ({ g with
            board := b2
            humanPos := lastHumanMove.fromPos
            currentPlayer := Player.human
            moveHistory := hist2 }, none)

/-- Lookup wrapper standing for the activeGames map: an unknown session
identifier fails before any session is touched. -/
def withGame (og : Option Game) (f : Game → Game × Option GameError) :
    Option Game × Option GameError :=
  match og with
  | none => (none, some GameError.notFound)
  | some g =>
    let r := f g
    (some r.1, r.2)

/-- Number of cells of the board holding the given marker. -/
def countCells (b : Board) (target : Cell) : Nat :=
  ((List.range 7).map fun row =>
    ((List.range 7).filter fun col =>
      decide (cellAt b (row : Int) (col : Int) = some target)).length).sum

/-- ExperienceReplay.determineGamePhase: classify by the share of blocked
cells. -/
def determineGamePhase (b : Board) : String :=
  let blockedCells := countCells b Cell.blocked
  let blockedPercentage : ℚ := ((blockedCells : ℚ) / 49) * 100
  if blockedPercentage < 20 then "opening"
  else if blockedPercentage < 60 then "midgame"
  else "endgame"

/-- ExperienceReplay.isStartingMove: at most two markers on the board. -/
def isStartingMove (b : Board) : Bool :=
  decide (countCells b Cell.human + countCells b Cell.ai ≤ 2)

/-- The isEdge test computed (and then never consulted) inside
ExperienceReplay.isTrapAttempt. -/
def isEdge (move : Pos) : Bool :=
  decide (move.1 = 0) || decide (move.1 = 6) || decide (move.2 = 0) || decide (move.2 = 6)

/-- ExperienceReplay.isTrapAttempt.  The source computes isEdge for the
destination but its result does not influence the returned value: the
scan over the board returns true exactly when the software agent sits
within Manhattan distance 2 of the destination. -/
def isTrapAttempt (move : Pos) (b : Board) : Bool :=
  let _isEdge := isEdge move
  (List.range 7).any fun r =>
    (List.range 7).any fun c =>
      decide (cellAt b (r : Int) (c : Int) = some Cell.ai) &&
      decide ((move.1 - (r : Int)).natAbs + (move.2 - (c : Int)).natAbs ≤ 2)

/-- Key of the starting-position table for a move. -/
def startKey (move : Pos) : String :=
  toString move.1 ++ "," ++ toString move.2

/-- ExperienceReplay.encodeMovePattern: derived phase, Manhattan distance
from the board centre, and the coordinates. -/
def encodeMovePattern (move : Pos) (b : Board) : String :=
  let centerDistance := (move.1 - 3).natAbs + (move.2 - 3).natAbs
  determineGamePhase b ++ "_" ++ toString centerDistance ++ "_" ++ startKey move

/-- ExperienceReplay.encodeTrapPattern. -/
def encodeTrapPattern (move : Pos) : String :=
  "trap_" ++ startKey move

/-- One buffered observation (gameId and timestamp dropped). -/
structure Experience where
  player : Player
  move : Pos
  board : Board
  phase : String

/-- The four frequency tables.  A JavaScript Map read through the
get-or-zero idiom is a total function defaulting to 0; a key is present
exactly when its count is positive. -/
structure HumanPatterns where
  startingPositions : String → Nat
  movePreferences : String → Nat
  trapAttempts : String → Nat
  escapePatterns : String → Nat

/-- Increment the count of one key. -/
def bump (t : String → Nat) (k : String) : String → Nat :=
  fun s => if s = k then t s + 1 else t s

/-- ExperienceReplay.analyzeHumanPattern: starting-position table in the
opening with at most two markers, move-pattern table always, trap-attempt
table when isTrapAttempt fires. -/
def analyzeHumanPattern (hp : HumanPatterns) (e : Experience) : HumanPatterns :=
  if e.player ≠ Player.human then hp
  else
    let hp1 :=
      if e.phase = "opening" ∧ isStartingMove e.board = true then
        { hp with startingPositions := bump hp.startingPositions (startKey e.move) }
      else hp
    let hp2 :=
      { hp1 with movePreferences := bump hp1.movePreferences (encodeMovePattern e.move e.board) }
    if isTrapAttempt e.move e.board = true then
      { hp2 with trapAttempts := bump hp2.trapAttempts (encodeTrapPattern e.move) }
    else hp2

/-- The recorder state: bounded observation buffer plus the pattern
tables. -/
structure ExperienceReplay where
  experienceBuffer : List Experience
  humanPatterns : HumanPatterns

/-- Buffer capacity. -/
def maxBufferSize : Nat := 10000

/-- Fresh recorder. -/
def initialReplay : ExperienceReplay :=
  { experienceBuffer := []
    humanPatterns :=
      { startingPositions := fun _ => 0
        movePreferences := fun _ => 0
        trapAttempts := fun _ => 0
        escapePatterns := fun _ => 0 } }

/-- ExperienceReplay.recordMove: append the observation, evict the oldest
entry once the capacity is exceeded, and analyze the pattern tables when
the mover is the human agent. -/
def recordMove (er : ExperienceReplay) (player : Player) (move : Pos) (b : Board) :
    ExperienceReplay :=
  let e : Experience := ⟨player, move, b, determineGamePhase b⟩
  let buf1 := er.experienceBuffer ++ [e]
  let buf2 := if maxBufferSize < buf1.length then buf1.drop 1 else buf1
  { experienceBuffer := buf2
    humanPatterns :=
      if player = Player.human then analyzeHumanPattern er.humanPatterns e
      else er.humanPatterns }

/-! Helper lemmas about the board primitives. -/

lemma cellAt_coe (b : Board) (i j : Fin 7) :
    cellAt b ((i : Nat) : Int) ((j : Nat) : Int) = some (b i j) := by
  have hcond : (0 : Int) ≤ ((i : Nat) : Int) ∧ ((i : Nat) : Int) < 7 ∧
      (0 : Int) ≤ ((j : Nat) : Int) ∧ ((j : Nat) : Int) < 7 := by
    have := i.isLt
    have := j.isLt
    omega
  rw [cellAt, dif_pos hcond]
  congr 1

lemma cellAt_eq_val {b : Board} {r c : Int} {x : Cell} (h : cellAt b r c = some x)
    (i j : Fin 7) (hi : ((i : Nat) : Int) = r) (hj : ((j : Nat) : Int) = c) :
    b i j = x := by
  have hco := cellAt_coe b i j
  rw [hi, hj, h] at hco
  exact (Option.some.inj hco).symm

lemma cellAt_bounds {b : Board} {r c : Int} {x : Cell} (h : cellAt b r c = some x) :
    0 ≤ r ∧ r < 7 ∧ 0 ≤ c ∧ c < 7 := by
  unfold cellAt at h
  split at h
  · assumption
  · exact absurd h (by simp)

/-- Undoing a human move restores the board exactly: blocking the source,
writing the destination, clearing the destination and rewriting the
source marker compose to the identity whenever the source held the human
marker and the destination was empty. -/
lemma board_roundtrip (b : Board) (hr hc r c : Int)
    (hhp : cellAt b hr hc = some Cell.human)
    (hto : cellAt b r c = some Cell.empty) :
    setCell (setCell (setCell (setCell b hr hc Cell.blocked) r c Cell.human) r c Cell.empty)
      hr hc Cell.human = b := by
  funext i j
  simp only [setCell]
  by_cases h1 : ((i : Nat) : Int) = hr ∧ ((j : Nat) : Int) = hc
  · rw [if_pos h1]
    exact (cellAt_eq_val hhp i j h1.1 h1.2).symm
  · rw [if_neg h1]
    by_cases h2 : ((i : Nat) : Int) = r ∧ ((j : Nat) : Int) = c
    · rw [if_pos h2]
      exact (cellAt_eq_val hto i j h2.1 h2.2).symm
    · rw [if_neg h2, if_neg h2, if_neg h1]

/-- Membership characterization of getValidMoves: exactly the in-bounds
empty cells at Chebyshev distance 1. -/
lemma mem_getValidMoves (b : Board) (pos q : Pos) :
    q ∈ getValidMoves b pos ↔
      max (q.1 - pos.1).natAbs (q.2 - pos.2).natAbs = 1 ∧
      isValidPosition q.1 q.2 = true ∧
      cellAt b q.1 q.2 = some Cell.empty := by
  unfold getValidMoves
  rw [List.mem_filterMap]
  constructor
  · rintro ⟨d, hd, hf⟩
    by_cases hcond :
        (isValidPosition (pos.1 + d.1) (pos.2 + d.2) &&
          decide (cellAt b (pos.1 + d.1) (pos.2 + d.2) = some Cell.empty)) = true
    · simp only [hcond, if_true, Option.some_inj] at hf
      subst hf
      rw [Bool.and_eq_true, decide_eq_true_iff] at hcond
      simp only [directions, List.mem_cons, List.not_mem_nil, or_false] at hd
      rcases hd with rfl | rfl | rfl | rfl | rfl | rfl | rfl | rfl <;>
        exact ⟨by omega, hcond.1, hcond.2⟩
    · simp only [hcond, if_false] at hf
      exact absurd hf (by simp)
  · rintro ⟨hcheb, hvalid, hcell⟩
    refine ⟨(q.1 - pos.1, q.2 - pos.2), ?_, ?_⟩
    · have hda : q.1 - pos.1 = -1 ∨ q.1 - pos.1 = 0 ∨ q.1 - pos.1 = 1 := by omega
      have hdb : q.2 - pos.2 = -1 ∨ q.2 - pos.2 = 0 ∨ q.2 - pos.2 = 1 := by omega
      have hnz : ¬ (q.1 - pos.1 = 0 ∧ q.2 - pos.2 = 0) := by omega
      simp only [directions, List.mem_cons, List.not_mem_nil, or_false, Prod.mk.injEq]
      rcases hda with h1 | h1 | h1 <;> rcases hdb with h2 | h2 | h2 <;>
        simp [h1, h2] at hnz ⊢
    · have e1 : pos.1 + (q.1 - pos.1) = q.1 := by ring
      have e2 : pos.2 + (q.2 - pos.2) = q.2 := by ring
      simp only [e1, e2, hvalid, hcell, decide_eq_true_eq]
      simp

/-- C9: For every board and every position, the legal-move function
deterministically returns exactly the set of cells at Chebyshev distance
1 from the position that are in-bounds and Empty — no more, no fewer. -/
theorem legal_moves_exactly_chebyshev_empty (b : Board) (pos q : Pos) :
    q ∈ getValidMoves b pos ↔
      max (q.1 - pos.1).natAbs (q.2 - pos.2).natAbs = 1 ∧
      isValidPosition q.1 q.2 = true ∧
      cellAt b q.1 q.2 = some Cell.empty :=
  mem_getValidMoves b pos q

/-! Lemmas about checkGameEnd and the committed-move termination rule. -/

lemma checkGameEnd_board (g : Game) : (checkGameEnd g).board = g.board := by
  unfold checkGameEnd endGame
  dsimp only
  split
  · rfl
  · split <;> rfl

lemma checkGameEnd_humanPos (g : Game) : (checkGameEnd g).humanPos = g.humanPos := by
  unfold checkGameEnd endGame
  dsimp only
  split
  · rfl
  · split <;> rfl

lemma checkGameEnd_aiPos (g : Game) : (checkGameEnd g).aiPos = g.aiPos := by
  unfold checkGameEnd endGame
  dsimp only
  split
  · rfl
  · split <;> rfl

lemma checkGameEnd_moveHistory (g : Game) : (checkGameEnd g).moveHistory = g.moveHistory := by
  unfold checkGameEnd endGame
  dsimp only
  split
  · rfl
  · split <;> rfl

lemma checkGameEnd_currentPlayer (g : Game) :
    (checkGameEnd g).currentPlayer = g.currentPlayer := by
  unfold checkGameEnd endGame
  dsimp only
  split
  · rfl
  · split <;> rfl

lemma checkGameEnd_spec (g : Game) :
    (getValidMovesOpt g.board g.humanPos = [] → checkGameEnd g = endGame g Player.ai) ∧
    (getValidMovesOpt g.board g.humanPos ≠ [] → getValidMovesOpt g.board g.aiPos = [] →
      checkGameEnd g = endGame g Player.human) ∧
    (getValidMovesOpt g.board g.humanPos ≠ [] → getValidMovesOpt g.board g.aiPos ≠ [] →
      checkGameEnd g = g) := by
  unfold checkGameEnd
  dsimp only
  refine ⟨fun h => ?_, fun h1 h2 => ?_, fun h1 h2 => ?_⟩
  · rw [if_pos (by simp [h])]
  · rw [if_neg (by simp [h1]), if_pos (by simp [h2])]
  · rw [if_neg (by simp [h1]), if_neg (by simp [h2])]

lemma checkGameEnd_eq_or (g : Game) :
    checkGameEnd g = g ∨ (checkGameEnd g).gamePhase = Phase.ended := by
  unfold checkGameEnd endGame
  dsimp only
  split
  · right; rfl
  · split
    · right; rfl
    · left; rfl

lemma applyMove_gamePhase (g : Game) (p : Player) (np : Pos) :
    (applyMove g p np).gamePhase = g.gamePhase := rfl

lemma applyMove_winner (g : Game) (p : Player) (np : Pos) :
    (applyMove g p np).winner = g.winner := rfl

/-- C1 (amended): After any committed move in the Playing phase, the
session becomes Ended iff at least one agent has zero legal moves from
its position on the resulting board; the human side is checked first, so
the software side is recorded as winner when the human has no legal
moves, and the human otherwise (when the software side has none) —
regardless of which side just moved. -/
theorem committed_move_termination (g : Game) (player : Player) (newPos : Pos)
    (hphase : g.gamePhase = Phase.playing) :
    ((movePlayer g player newPos).gamePhase = Phase.ended ↔
      (getValidMovesOpt (movePlayer g player newPos).board (movePlayer g player newPos).humanPos = [] ∨
       getValidMovesOpt (movePlayer g player newPos).board (movePlayer g player newPos).aiPos = [])) ∧
    (getValidMovesOpt (movePlayer g player newPos).board (movePlayer g player newPos).humanPos = [] →
      (movePlayer g player newPos).winner = some Player.ai) ∧
    (getValidMovesOpt (movePlayer g player newPos).board (movePlayer g player newPos).humanPos ≠ [] →
      getValidMovesOpt (movePlayer g player newPos).board (movePlayer g player newPos).aiPos = [] →
      (movePlayer g player newPos).winner = some Player.human) := by
  obtain ⟨s1, s2, s3⟩ := checkGameEnd_spec (applyMove g player newPos)
  unfold movePlayer
  by_cases h1 :
      getValidMovesOpt (applyMove g player newPos).board (applyMove g player newPos).humanPos = []
  · rw [s1 h1]
    refine ⟨?_, fun _ => rfl, fun hne _ => ?_⟩
    · simp only [endGame]
      exact ⟨fun _ => Or.inl h1, fun _ => by trivial⟩
    · exact absurd h1 hne
  · by_cases h2 :
        getValidMovesOpt (applyMove g player newPos).board (applyMove g player newPos).aiPos = []
    · rw [s2 h1 h2]
      refine ⟨?_, fun hh => absurd hh h1, fun _ _ => rfl⟩
      simp only [endGame]
      exact ⟨fun _ => Or.inr h2, fun _ => by trivial⟩
    · rw [s3 h1 h2]
      refine ⟨?_, fun hh => absurd hh h1, fun _ hh => absurd hh h2⟩
      constructor
      · intro hph
        rw [applyMove_gamePhase, hphase] at hph
        exact absurd hph (by simp)
      · rintro (h | h)
        · exact absurd h h1
        · exact absurd h h2

/-- Board of the C1 counterexample: the human at (0,1) next to the corner
(0,0) whose other neighbours (1,0) and (1,1) are already blocked; the
software agent far away at (5,5) with all its neighbours free. -/
def boardC1 : Board :=
  setCell (setCell (setCell (setCell initializeBoard 0 1 Cell.human) 1 0 Cell.blocked)
    1 1 Cell.blocked) 5 5 Cell.ai

/-- Session for the C1 counterexample. -/
def gameC1 : Game :=
  { board := boardC1
    humanPos := some (0, 1)
    aiPos := some (5, 5)
    currentPlayer := Player.human
    gamePhase := Phase.playing
    moveHistory := []
    winner := none }

/-- C1 counterexample: the human commits the legal move into the corner
(0,0) and self-traps.  The session ends even though the side now to act
(the software side) still has legal moves, and the recorded winner is the
software side, not the side that just moved. -/
theorem committed_move_termination_counterexample :
    (makeHumanMove gameC1 0 0).2 = none ∧
    (makeHumanMove gameC1 0 0).1.currentPlayer = Player.ai ∧
    (makeHumanMove gameC1 0 0).1.gamePhase = Phase.ended ∧
    getValidMovesOpt (makeHumanMove gameC1 0 0).1.board (makeHumanMove gameC1 0 0).1.aiPos ≠ [] ∧
    (makeHumanMove gameC1 0 0).1.winner = some Player.ai := by
  decide

/-- Witness for the C1 theorem at a concrete session and move. -/
theorem committed_move_termination_witness :
    gameC1.gamePhase = Phase.playing ∧
    (((movePlayer gameC1 Player.human (0, 0)).gamePhase = Phase.ended ↔
      (getValidMovesOpt (movePlayer gameC1 Player.human (0, 0)).board
        (movePlayer gameC1 Player.human (0, 0)).humanPos = [] ∨
       getValidMovesOpt (movePlayer gameC1 Player.human (0, 0)).board
        (movePlayer gameC1 Player.human (0, 0)).aiPos = [])) ∧
     (getValidMovesOpt (movePlayer gameC1 Player.human (0, 0)).board
        (movePlayer gameC1 Player.human (0, 0)).humanPos = [] →
      (movePlayer gameC1 Player.human (0, 0)).winner = some Player.ai) ∧
     (getValidMovesOpt (movePlayer gameC1 Player.human (0, 0)).board
        (movePlayer gameC1 Player.human (0, 0)).humanPos ≠ [] →
      getValidMovesOpt (movePlayer gameC1 Player.human (0, 0)).board
        (movePlayer gameC1 Player.human (0, 0)).aiPos = [] →
      (movePlayer gameC1 Player.human (0, 0)).winner = some Player.human)) :=
  ⟨rfl, committed_move_termination gameC1 Player.human (0, 0) rfl⟩

lemma lastHuman_append_human (l : List MoveRecord) (r : MoveRecord)
    (h : r.player = Player.human) :
    lastHuman (l ++ [r]) = some (l.length, r) := by
  induction l with
  | nil => simp [lastHuman, h]
  | cons x xs ih => simp [lastHuman, ih]

lemma take_length_append (l : List MoveRecord) (r : MoveRecord) :
    (l ++ [r]).take l.length = l := by
  induction l with
  | nil => rfl
  | cons x xs ih => simp [ih]

/-- Closed form of a successful undo whose history ends in a human move:
the pop loop discards the trailing human record, the extra pop discards
one further record, and the branch on the remaining length either resets
the session or reverts the human record on the board. -/
lemma undoLastMove_formula (G : Game) (h : List MoveRecord) (m : MoveRecord)
    (hist : G.moveHistory = h ++ [m]) (hpl : m.player = Player.human)
    (hph : G.gamePhase ≠ Phase.ended) :
    undoLastMove G =
      if h.dropLast.length = 0 then
        ({ G with
            gamePhase := Phase.starting
            currentPlayer := Player.human
            humanPos := none
            aiPos := none
            winner := none
            board := initializeBoard
            moveHistory := h.dropLast }, none)
      else
        ({ G with
            board :=
              (match m.fromPos with
              | some p =>
                setCell (setCell G.board m.toPos.1 m.toPos.2 Cell.empty) p.1 p.2
                  (cellOf m.player)
              | none => setCell G.board m.toPos.1 m.toPos.2 Cell.empty)
            humanPos := m.fromPos
            currentPlayer := Player.human
            moveHistory := h.dropLast }, none) := by
  unfold undoLastMove
  rw [if_neg hph, hist, lastHuman_append_human h m hpl]
  have hlen : ¬ ((h ++ [m]).length = 0) := by simp
  rw [if_neg hlen]
  dsimp only
  rw [take_length_append]

/-- C3 (amended): For a session in the Playing phase with the human to
move (marker invariant holding), applying a valid human move that leaves
the game in the Playing phase and then undoing it restores the board,
both agent positions, the phase and currentPlayer to their exact
pre-move values whenever the pre-move history held more than one record;
with at most one pre-move record (in particular immediately after the
initial placement, which records nothing) the undo instead resets the
session fully to Starting with an empty board and null positions.  The
undo also discards one extra history record beyond the applied move. -/
theorem human_move_undo_roundtrip (g : Game) (row col : Int) (hp : Pos)
    (hphase : g.gamePhase = Phase.playing)
    (hcp : g.currentPlayer = Player.human)
    (hhp : g.humanPos = some hp)
    (hcell : cellAt g.board hp.1 hp.2 = some Cell.human)
    (g1 : Game) (hmv : makeHumanMove g row col = (g1, none))
    (hplay : g1.gamePhase = Phase.playing) :
    (g.moveHistory.length ≤ 1 → undoLastMove g1 = (createGame, none)) ∧
    (1 < g.moveHistory.length →
      (undoLastMove g1).2 = none ∧
      (undoLastMove g1).1.board = g.board ∧
      (undoLastMove g1).1.humanPos = g.humanPos ∧
      (undoLastMove g1).1.aiPos = g.aiPos ∧
      (undoLastMove g1).1.gamePhase = g.gamePhase ∧
      (undoLastMove g1).1.currentPlayer = g.currentPlayer) := by
  -- extract the success branch of makeHumanMove
  unfold makeHumanMove at hmv
  rw [hphase, hcp] at hmv
  simp only [ne_eq, not_true_eq_false, false_or, or_self, if_false] at hmv
  by_cases hmem : ((row, col) : Pos) ∈ getValidMovesOpt g.board g.humanPos
  case neg =>
    rw [if_pos hmem] at hmv
    simp at hmv
  case pos =>
    rw [if_neg (not_not_intro hmem)] at hmv
    have hg1 : g1 = { movePlayer g Player.human (row, col) with currentPlayer := Player.ai } := by
      have := congrArg Prod.fst hmv
      exact this.symm
    -- the end-of-game check did not fire
    have hchk : checkGameEnd (applyMove g Player.human (row, col)) =
        applyMove g Player.human (row, col) := by
      rcases checkGameEnd_eq_or (applyMove g Player.human (row, col)) with hc | hc
      · exact hc
      · exfalso
        rw [hg1] at hplay
        have : (movePlayer g Player.human (row, col)).gamePhase = Phase.playing := hplay
        rw [movePlayer] at this
        rw [this] at hc
        exact absurd hc (by simp)
    have hg1e : g1 = { applyMove g Player.human (row, col) with currentPlayer := Player.ai } := by
      rw [hg1]
      rw [movePlayer, hchk]
    -- explicit form of applyMove
    have hAe : applyMove g Player.human (row, col) =
        { g with
            board := setCell (setCell g.board hp.1 hp.2 Cell.blocked) row col Cell.human
            humanPos := some ((row : Int), (col : Int))
            moveHistory := g.moveHistory ++ [⟨Player.human, some hp, (row, col),
              setCell (setCell g.board hp.1 hp.2 Cell.blocked) row col Cell.human⟩] } := by
      simp [applyMove, hhp, cellOf]
    rw [hAe] at hg1e
    -- undo via the closed form
    have hist : g1.moveHistory = g.moveHistory ++ [⟨Player.human, some hp, (row, col),
        setCell (setCell g.board hp.1 hp.2 Cell.blocked) row col Cell.human⟩] := by
      rw [hg1e]
    have hform := undoLastMove_formula g1 g.moveHistory
      ⟨Player.human, some hp, (row, col),
        setCell (setCell g.board hp.1 hp.2 Cell.blocked) row col Cell.human⟩
      hist rfl (by rw [hplay]; simp)
    have hcellto : cellAt g.board row col = some Cell.empty := by
      rw [hhp] at hmem
      exact ((mem_getValidMoves g.board hp (row, col)).1 hmem).2.2
    have hb : g1.board = setCell (setCell g.board hp.1 hp.2 Cell.blocked) row col Cell.human := by
      rw [hg1e]
    have hai : g1.aiPos = g.aiPos := by
      rw [hg1e]
    have hph1 : g1.gamePhase = g.gamePhase := by
      rw [hg1e]
    constructor
    · intro hle
      have hdz : g.moveHistory.dropLast.length = 0 := by
        rw [List.length_dropLast]
        omega
      rw [hform, if_pos hdz]
      have hde : g.moveHistory.dropLast = [] := List.length_eq_zero.1 hdz
      simp [createGame, hde]
    · intro hgt
      have hdz : ¬ (g.moveHistory.dropLast.length = 0) := by
        rw [List.length_dropLast]
        omega
      rw [hform, if_neg hdz]
      refine ⟨rfl, ?_, ?_, ?_, ?_, ?_⟩
      · dsimp only
        rw [hb]
        exact board_roundtrip g.board hp.1 hp.2 row col hcell hcellto
      · exact hhp.symm
      · dsimp only
        exact hai
      · dsimp only
        exact hph1.trans rfl
      · exact hcp.symm

lemma applyMove_record_ex (g : Game) (p : Player) (np : Pos) :
    ∃ r : MoveRecord, r.player = p ∧ (applyMove g p np).moveHistory = g.moveHistory ++ [r] :=
  ⟨_, rfl, rfl⟩

lemma movePlayer_record_ex (g : Game) (p : Player) (np : Pos) :
    ∃ r : MoveRecord, r.player = p ∧ (movePlayer g p np).moveHistory = g.moveHistory ++ [r] := by
  obtain ⟨r, hr, hh⟩ := applyMove_record_ex g p np
  exact ⟨r, hr, by rw [movePlayer, checkGameEnd_moveHistory, hh]⟩

lemma lastHuman_pair (r1 r2 : MoveRecord) (h1 : r1.player = Player.human)
    (h2 : r2.player = Player.ai) :
    lastHuman [r1, r2] = some (0, r1) := by
  simp [lastHuman, h1, h2]

/-- C2 (amended): Starting from a session in the Playing phase whose
history is empty (the state immediately after the initial placement,
which pushes no history record), applying one human move, then one
software move that leaves the game in the Playing phase, then undo
yields a fully reset session: phase Starting, empty board, null agent
positions, empty history, currentPlayer Human — not the post-placement
snapshot. -/
theorem undo_after_move_pair_resets (g : Game) (row col : Int) (o : MCTSOracle) (cap : Nat)
    (hhist : g.moveHistory = [])
    (g1 : Game) (h1 : makeHumanMove g row col = (g1, none))
    (g2 : Game) (h2 : makeAIMove g1 o cap = (g2, none))
    (hplay : g2.gamePhase = Phase.playing) :
    undoLastMove g2 = (createGame, none) := by
  -- success shape of the human move
  unfold makeHumanMove at h1
  by_cases hc1 : g.gamePhase ≠ Phase.playing ∨ g.currentPlayer ≠ Player.human
  · rw [if_pos hc1] at h1
    simp at h1
  rw [if_neg hc1] at h1
  by_cases hm1 : ((row, col) : Pos) ∈ getValidMovesOpt g.board g.humanPos
  swap
  · rw [if_pos hm1] at h1
    simp at h1
  rw [if_neg (not_not_intro hm1)] at h1
  have hg1 : g1 = { movePlayer g Player.human (row, col) with currentPlayer := Player.ai } :=
    (congrArg Prod.fst h1).symm
  obtain ⟨r1, hr1, hh1⟩ := movePlayer_record_ex g Player.human (row, col)
  have hh1e : g1.moveHistory = [r1] := by
    rw [hg1]
    show (movePlayer g Player.human (row, col)).moveHistory = [r1]
    rw [hh1, hhist, List.nil_append]
  -- success shape of the software move
  unfold makeAIMove at h2
  by_cases hc2 : g1.gamePhase ≠ Phase.playing ∨ g1.currentPlayer ≠ Player.ai
  · rw [if_pos hc2] at h2
    simp at h2
  rw [if_neg hc2] at h2
  by_cases hv2 : (getValidMovesOpt g1.board g1.aiPos).length = 0
  · rw [if_pos hv2] at h2
    have : g2 = endGame g1 Player.human := (congrArg Prod.fst h2).symm
    rw [this] at hplay
    exact absurd hplay (by simp [endGame])
  rw [if_neg hv2] at h2
  have hg2 : g2 =
      { movePlayer g1 Player.ai (enhancedMCTS o (getValidMovesOpt g1.board g1.aiPos) cap) with
          currentPlayer := Player.human } :=
    (congrArg Prod.fst h2).symm
  obtain ⟨r2, hr2, hh2⟩ :=
    movePlayer_record_ex g1 Player.ai (enhancedMCTS o (getValidMovesOpt g1.board g1.aiPos) cap)
  have hh2e : g2.moveHistory = [r1, r2] := by
    rw [hg2]
    show (movePlayer g1 Player.ai _).moveHistory = [r1, r2]
    rw [hh2, hh1e]
    rfl
  -- the undo resets fully
  unfold undoLastMove
  rw [if_neg (by rw [hplay]; simp), hh2e]
  rw [if_neg (by simp), lastHuman_pair r1 r2 hr1 hr2]
  dsimp only
  simp [createGame]

lemma setCell_ne_point (b : Board) (r c : Int) (v : Cell) (i j : Fin 7)
    (hne : ¬ (((i : Nat) : Int) = r ∧ ((j : Nat) : Int) = c)) :
    setCell b r c v i j = b i j :=
  if_neg hne

lemma lastHuman_isSome_ne_nil {l : List MoveRecord} {x : Nat × MoveRecord}
    (h : lastHuman l = some x) : l ≠ [] := by
  intro he
  rw [he] at h
  exact absurd h (by simp [lastHuman])

/-- C10: For every successful undo that does not fully reset the session
(the move history is nonempty afterward), the software agent position
and every board cell other than the reverted human record's source and
destination cells are unchanged; in particular cells blocked by the
software agent's discarded move remain Blocked and its marker stays
where it was. -/
theorem undo_frame (g : Game) (idx : Nat) (m : MoveRecord)
    (hlast : lastHuman g.moveHistory = some (idx, m))
    (hph : g.gamePhase ≠ Phase.ended)
    (hne : ¬ ((g.moveHistory.take idx).dropLast.length = 0)) :
    (undoLastMove g).2 = none ∧
    (undoLastMove g).1.aiPos = g.aiPos ∧
    (undoLastMove g).1.moveHistory = (g.moveHistory.take idx).dropLast ∧
    ∀ i j : Fin 7,
      ¬ (((i : Nat) : Int) = m.toPos.1 ∧ ((j : Nat) : Int) = m.toPos.2) →
      (∀ p : Pos, m.fromPos = some p →
        ¬ (((i : Nat) : Int) = p.1 ∧ ((j : Nat) : Int) = p.2)) →
      (undoLastMove g).1.board i j = g.board i j := by
  have hlen : ¬ (g.moveHistory.length = 0) := by
    have := lastHuman_isSome_ne_nil hlast
    simpa [List.length_eq_zero] using this
  unfold undoLastMove
  rw [if_neg hph, if_neg hlen, hlast]
  dsimp only
  rw [if_neg hne]
  refine ⟨rfl, rfl, rfl, ?_⟩
  intro i j hto hfrom
  cases hfp : m.fromPos with
  | none =>
    dsimp only [hfp]
    exact setCell_ne_point g.board m.toPos.1 m.toPos.2 Cell.empty i j hto
  | some p =>
    dsimp only [hfp]
    rw [setCell_ne_point _ p.1 p.2 _ i j (hfrom p hfp)]
    exact setCell_ne_point g.board m.toPos.1 m.toPos.2 Cell.empty i j hto

lemma runRound_sims_le (o : MCTSOracle) :
    ∀ (l : List Pos) (s : MCTSState), (runRound o l s).sims ≤ s.sims + l.length := by
  intro l
  induction l with
  | nil =>
    intro s
    simp [runRound]
  | cons m rest ih =>
    intro s
    rw [runRound]
    dsimp only
    split
    · simp
    · refine le_trans (ih _) ?_
      dsimp only
      simp
      omega

lemma runMCTS_sims_le (o : MCTSOracle) (moves : List Pos) (cap : Nat) :
    ∀ (fuel : Nat) (s : MCTSState),
      (runMCTS o moves cap fuel s).sims ≤ max s.sims (cap - 1 + moves.length) := by
  intro fuel
  induction fuel with
  | zero =>
    intro s
    rw [runMCTS]
    exact le_max_left _ _
  | succ fuel ih =>
    intro s
    rw [runMCTS]
    dsimp only
    split
    · exact le_max_left _ _
    · rename_i hcond
      simp only [Bool.or_eq_true, decide_eq_true_eq, not_or] at hcond
      have hlt : s.sims < cap := by omega
      have hround := runRound_sims_le o moves { s with tick := s.tick + 1 }
      split
      · refine le_trans ?_ (le_max_right _ _)
        dsimp only at hround
        omega
      · refine le_trans (ih _) ?_
        dsimp only at hround
        omega

/-- C4 (amended): During one software-move selection the engine stops
issuing further rounds once the wall-clock deadline or the
evaluation-count cap is reached; a round in progress when the deadline
hits finishes only its current candidate, but a round in progress when
the cap is reached completes all its remaining candidates, so the total
number of Position Evaluator invocations (the sims counter, incremented
exactly once per invocation) is bounded by cap − 1 + number of
candidates — not by the cap itself. -/
theorem mcts_eval_count_bound (o : MCTSOracle) (moves : List Pos) (cap : Nat) :
    (mctsFinal o moves cap).sims ≤ cap - 1 + moves.length := by
  have h := runMCTS_sims_le o moves cap (cap + 1) initMCTSState
  simpa [initMCTSState, mctsFinal] using h

def oracleC4 : MCTSOracle := ⟨fun _ => 0, fun _ => false⟩

def movesC4 : List Pos := [(0, 0), (0, 1), (0, 2)]

/-- C4 counterexample: with three candidates, the default cap of 200 and
a clock that never expires, the loop performs 201 evaluator invocations,
exceeding the evaluation-count cap. -/
theorem mcts_eval_count_counterexample :
    (mctsFinal oracleC4 movesC4 200).sims = 201 := by decide

def pickBest (wr : Pos → ℚ) : List Pos → Pos → Pos
  | [], best => best
  | m :: rest, best => pickBest wr rest (if wr best < wr m then m else best)

lemma selGo_eq_pickBest (wr : Pos → ℚ) :
    ∀ (rest : List Pos) (best : Pos), selGo wr rest best (wr best) = pickBest wr rest best := by
  intro rest
  induction rest with
  | nil => intro best; rfl
  | cons m rest ih =>
    intro best
    rw [selGo, pickBest]
    by_cases h : wr best < wr m
    · rw [if_pos h, if_pos h, ih]
    · rw [if_neg h, if_neg h, ih]

lemma selectBest_cons (wr : Pos → ℚ) (m0 : Pos) (rest : List Pos) (h : 0 ≤ wr m0) :
    selectBest wr (m0 :: rest) = pickBest wr rest m0 := by
  show selGo wr (m0 :: rest) m0 0 = _
  rw [selGo]
  by_cases hh : (0 : ℚ) < wr m0
  · rw [if_pos hh, selGo_eq_pickBest]
  · rw [if_neg hh]
    have h0 : wr m0 = 0 := le_antisymm (not_lt.1 hh) h
    rw [← h0, selGo_eq_pickBest]

lemma pickBest_spec (wr : Pos → ℚ) :
    ∀ (rest : List Pos) (best : Pos),
      (pickBest wr rest best = best ∧ ∀ m ∈ rest, wr m ≤ wr best) ∨
      (∃ (k : Nat) (hk : k < rest.length),
        pickBest wr rest best = rest.get ⟨k, hk⟩ ∧
        wr best < wr (rest.get ⟨k, hk⟩) ∧
        (∀ m ∈ rest, wr m ≤ wr (rest.get ⟨k, hk⟩)) ∧
        (∀ (j : Nat) (hj : j < k), wr (rest.get ⟨j, lt_trans hj hk⟩) < wr (rest.get ⟨k, hk⟩))) := by
  intro rest
  induction rest with
  | nil =>
    intro best
    left
    exact ⟨rfl, by simp⟩
  | cons m rest ih =>
    intro best
    rw [pickBest]
    by_cases h : wr best < wr m
    · rw [if_pos h]
      rcases ih m with ⟨heq, hall⟩ | ⟨k, hk, heq, hgt, hall, hfirst⟩
      · right
        refine ⟨0, by simp, by simpa using heq, by simpa using h, ?_, ?_⟩
        · intro x hx
          rcases List.mem_cons.1 hx with rfl | hx
          · simp
          · simpa using hall x hx
        · intro j hj
          exact absurd hj (by omega)
      · right
        refine ⟨k + 1, by simpa using Nat.succ_lt_succ hk, by simpa using heq,
          by simpa using lt_trans h hgt, ?_, ?_⟩
        · intro x hx
          rcases List.mem_cons.1 hx with rfl | hx
          · simpa using le_of_lt hgt
          · simpa using hall x hx
        · intro j hj
          cases j with
          | zero => simpa using hgt
          | succ j => simpa using hfirst j (by omega)
    · rw [if_neg h]
      have hm : wr m ≤ wr best := not_lt.1 h
      rcases ih best with ⟨heq, hall⟩ | ⟨k, hk, heq, hgt, hall, hfirst⟩
      · left
        refine ⟨heq, ?_⟩
        intro x hx
        rcases List.mem_cons.1 hx with rfl | hx
        · exact hm
        · exact hall x hx
      · right
        refine ⟨k + 1, by simpa using Nat.succ_lt_succ hk, by simpa using heq,
          by simpa using hgt, ?_, ?_⟩
        · intro x hx
          rcases List.mem_cons.1 hx with rfl | hx
          · simpa using le_of_lt (lt_of_le_of_lt hm hgt)
          · simpa using hall x hx
        · intro j hj
          cases j with
          | zero => simpa using lt_of_le_of_lt hm hgt
          | succ j => simpa using hfirst j (by omega)

lemma runRound_scores_nonneg (o : MCTSOracle) (h0 : ∀ k, 0 ≤ o.evalFn k) :
    ∀ (l : List Pos) (s : MCTSState), (∀ m, 0 ≤ s.scores m) →
      ∀ m, 0 ≤ (runRound o l s).scores m := by
  intro l
  induction l with
  | nil =>
    intro s hs m
    simpa [runRound] using hs m
  | cons x rest ih =>
    intro s hs m
    rw [runRound]
    dsimp only
    have hs1 : ∀ mm, 0 ≤ (fun k =>
        if k = x then s.scores k + o.evalFn s.sims else s.scores k) mm := by
      intro mm
      dsimp only
      split
      · exact add_nonneg (hs mm) (h0 _)
      · exact hs mm
    split
    · exact hs1 m
    · exact ih _ hs1 m

lemma runMCTS_scores_nonneg (o : MCTSOracle) (moves : List Pos) (cap : Nat)
    (h0 : ∀ k, 0 ≤ o.evalFn k) :
    ∀ (fuel : Nat) (s : MCTSState), (∀ m, 0 ≤ s.scores m) →
      ∀ m, 0 ≤ (runMCTS o moves cap fuel s).scores m := by
  intro fuel
  induction fuel with
  | zero =>
    intro s hs m
    simpa [runMCTS] using hs m
  | succ fuel ih =>
    intro s hs m
    rw [runMCTS]
    dsimp only
    split
    · exact hs m
    · have hr := runRound_scores_nonneg o h0 moves { s with tick := s.tick + 1 } hs
      split
      · exact hr m
      · exact ih _ hr m

lemma mctsFinal_scores_nonneg (o : MCTSOracle) (moves : List Pos) (cap : Nat)
    (h0 : ∀ k, 0 ≤ o.evalFn k) :
    ∀ m, 0 ≤ (mctsFinal o moves cap).scores m :=
  runMCTS_scores_nonneg o moves cap h0 (cap + 1) initMCTSState (fun _ => le_refl 0)

lemma winRate_nonneg (s : MCTSState) (hs : ∀ m, 0 ≤ s.scores m) (m : Pos) :
    0 ≤ winRate s m := by
  unfold winRate
  split
  · exact div_nonneg (hs m) (Nat.cast_nonneg _)
  · exact le_refl 0

/-- C8: Whenever the Selection Engine chooses among candidates (any
nonempty list, any cap, any deadline behaviour, evaluator values
nonnegative as all real evaluators in [0,1] are), it returns the
candidate whose mean score (running sum over visit count, zero visits
scoring 0) is strictly greatest, and on an exact tie the candidate
enumerated first: the returned candidate is at an index k whose mean is
a maximum and every earlier index has strictly smaller mean.  With a
constant evaluator all means coincide, so the first-enumerated candidate
is returned. -/
theorem selection_returns_first_argmax (o : MCTSOracle) (moves : List Pos) (cap : Nat)
    (hne : moves ≠ [])
    (h0 : ∀ k, 0 ≤ o.evalFn k) :
    ∃ (k : Nat) (hk : k < moves.length),
      enhancedMCTS o moves cap = moves.get ⟨k, hk⟩ ∧
      (∀ (j : Nat) (hj : j < moves.length),
        winRate (mctsFinal o moves cap) (moves.get ⟨j, hj⟩) ≤
          winRate (mctsFinal o moves cap) (moves.get ⟨k, hk⟩)) ∧
      ∀ (j : Nat) (hj : j < k),
        winRate (mctsFinal o moves cap) (moves.get ⟨j, lt_trans hj hk⟩) <
          winRate (mctsFinal o moves cap) (moves.get ⟨k, hk⟩) := by
  obtain ⟨m0, rest, rfl⟩ := List.exists_cons_of_ne_nil hne
  have hnn : ∀ m, 0 ≤ winRate (mctsFinal o (m0 :: rest) cap) m :=
    winRate_nonneg _ (mctsFinal_scores_nonneg o (m0 :: rest) cap h0)
  have hsel : enhancedMCTS o (m0 :: rest) cap =
      pickBest (winRate (mctsFinal o (m0 :: rest) cap)) rest m0 := by
    unfold enhancedMCTS
    exact selectBest_cons _ m0 rest (hnn m0)
  rcases pickBest_spec (winRate (mctsFinal o (m0 :: rest) cap)) rest m0 with
    ⟨heq, hall⟩ | ⟨k, hk, heq, hgt, hall, hfirst⟩
  · refine ⟨0, by simp, by simpa [hsel] using heq, ?_, ?_⟩
    · intro j hj
      cases j with
      | zero => simp
      | succ j =>
        simpa using hall (rest.get ⟨j, by simpa using hj⟩) (List.get_mem _ _ _)
    · intro j hj
      exact absurd hj (by omega)
  · refine ⟨k + 1, by simpa using Nat.succ_lt_succ hk, by simpa [hsel] using heq, ?_, ?_⟩
    · intro j hj
      cases j with
      | zero => simpa using le_of_lt hgt
      | succ j =>
        simpa using hall (rest.get ⟨j, by simpa using hj⟩) (List.get_mem _ _ _)
    · intro j hj
      cases j with
      | zero => simpa using hgt
      | succ j => simpa using hfirst j (by omega)

lemma move_ratio_bounds (hm am : Nat) :
    0 ≤ (if am = 0 then (0 : ℚ) else if hm = 0 then 1 else (am : ℚ) / ((hm : ℚ) + (am : ℚ))) ∧
    (if am = 0 then (0 : ℚ) else if hm = 0 then 1 else (am : ℚ) / ((hm : ℚ) + (am : ℚ))) ≤ 1 := by
  split
  · norm_num
  · rename_i ha
    split
    · norm_num
    · rename_i hh
      have hapos : 0 < (am : ℚ) := by
        exact_mod_cast Nat.pos_of_ne_zero ha
      have hdpos : 0 < (hm : ℚ) + (am : ℚ) :=
        add_pos_of_nonneg_of_pos (Nat.cast_nonneg hm) hapos
      constructor
      · exact le_of_lt (div_pos hapos hdpos)
      · rw [div_le_one hdpos]
        exact le_add_of_nonneg_left (Nat.cast_nonneg hm)

lemma heuristicEvaluation_bounds (b : Board) :
    0 ≤ heuristicEvaluation b ∧ heuristicEvaluation b ≤ 1 := by
  unfold heuristicEvaluation
  exact move_ratio_bounds _ _

/-- C7: For every board the evaluator call returns a scalar in [0,1] and
never propagates an exception: when the learned strategy is not loaded,
raises an error, or does not return within the timeout, the heuristic
evaluation of the same board is returned instead for that single call.
The hypothesis on NNOutcome.value records the learned model's output
contract (a sigmoid unit, hence a value in [0,1]), whose floating-point
internals are outside the embedding. -/
theorem evaluator_bounded_fallback (isLoaded : Bool) (outcome : NNOutcome) (b : Board)
    (hval : ∀ x : ℚ, outcome = NNOutcome.value x → 0 ≤ x ∧ x ≤ 1) :
    (0 ≤ evaluatePosition isLoaded outcome b ∧ evaluatePosition isLoaded outcome b ≤ 1) ∧
    (isLoaded = false ∨ outcome = NNOutcome.errored ∨ outcome = NNOutcome.timedOut →
      evaluatePosition isLoaded outcome b = heuristicEvaluation b) := by
  unfold evaluatePosition
  cases isLoaded
  · simpa using heuristicEvaluation_bounds b
  · cases outcome with
    | value x =>
      refine ⟨by simpa using hval x rfl, ?_⟩
      rintro (h | h | h) <;> simp at h
    | errored => simpa using heuristicEvaluation_bounds b
    | timedOut => simpa using heuristicEvaluation_bounds b

/-- C6: For every session operation (place starting position, apply
human move, apply software move, undo), whenever the call fails with a
caller-visible error the canonical session is exactly as it was before
the call — each operation is embedded so that the state accompanying an
error is the state the mutable session holds when the source throws, and
that state is always the original one; an unknown session identifier
fails before any session is touched. -/
theorem failed_operations_leave_session_unchanged (g : Game) (row col : Int) (randIdx : Nat)
    (o : MCTSOracle) (cap : Nat) :
    ((placeStartingPosition g row col randIdx).2.isSome →
      (placeStartingPosition g row col randIdx).1 = g) ∧
    ((makeHumanMove g row col).2.isSome → (makeHumanMove g row col).1 = g) ∧
    ((makeAIMove g o cap).2.isSome → (makeAIMove g o cap).1 = g) ∧
    ((undoLastMove g).2.isSome → (undoLastMove g).1 = g) ∧
    withGame none (fun gg => makeHumanMove gg row col) = (none, some GameError.notFound) := by
  refine ⟨?_, ?_, ?_, ?_, rfl⟩
  · unfold placeStartingPosition
    split
    · intro _; rfl
    · split
      · intro _; rfl
      · intro h; simp at h
  · unfold makeHumanMove
    split
    · intro _; rfl
    · split
      · intro _; rfl
      · intro h; simp at h
  · unfold makeAIMove
    split
    · intro _; rfl
    · dsimp only
      split
      · intro h; simp at h
      · intro h; simp at h
  · unfold undoLastMove
    split
    · intro _; rfl
    · split
      · intro _; rfl
      · split
        · intro _; rfl
        · dsimp only
          intro h
          exfalso
          revert h
          split <;> simp

def gameC3 : Game :=
  { board := setCell (setCell initializeBoard 0 0 Cell.human) 3 3 Cell.ai
    humanPos := some (0, 0)
    aiPos := some ((3 : Int), (3 : Int))
    currentPlayer := Player.human
    gamePhase := Phase.playing
    moveHistory := []
    winner := none }

/-- C3 counterexample: on the session right after the initial placement
(history empty), applying a human move whose record has a non-null
source (so it is not the initial placement) and undoing it yields phase
Starting with null positions instead of restoring the pre-move Playing
state. -/
theorem human_move_undo_roundtrip_counterexample :
    (makeHumanMove gameC3 0 1).2 = none ∧
    (makeHumanMove gameC3 0 1).1.moveHistory.map MoveRecord.fromPos = [some ((0 : Int), (0 : Int))] ∧
    (makeHumanMove gameC3 0 1).1.gamePhase = Phase.playing ∧
    (undoLastMove (makeHumanMove gameC3 0 1).1).2 = none ∧
    (undoLastMove (makeHumanMove gameC3 0 1).1).1.gamePhase = Phase.starting ∧
    (undoLastMove (makeHumanMove gameC3 0 1).1).1.humanPos = none ∧
    gameC3.gamePhase = Phase.playing ∧
    gameC3.humanPos = some ((0 : Int), (0 : Int)) := by
  decide

def boardC3w : Board :=
  setCell (setCell (setCell (setCell initializeBoard 2 2 Cell.human) 4 4 Cell.ai)
    1 1 Cell.blocked) 3 3 Cell.blocked

def gameC3w : Game :=
  { board := boardC3w
    humanPos := some (2, 2)
    aiPos := some ((4 : Int), (4 : Int))
    currentPlayer := Player.human
    gamePhase := Phase.playing
    moveHistory := [⟨Player.human, some (1, 1), (2, 2), initializeBoard⟩,
      ⟨Player.ai, some (3, 3), (4, 4), initializeBoard⟩]
    winner := none }

/-- Witness for the C3 theorem at a concrete two-record session. -/
theorem human_move_undo_roundtrip_witness :
    1 < gameC3w.moveHistory.length ∧
    ((undoLastMove (makeHumanMove gameC3w 2 3).1).2 = none ∧
     (undoLastMove (makeHumanMove gameC3w 2 3).1).1.board = gameC3w.board ∧
     (undoLastMove (makeHumanMove gameC3w 2 3).1).1.humanPos = gameC3w.humanPos ∧
     (undoLastMove (makeHumanMove gameC3w 2 3).1).1.aiPos = gameC3w.aiPos ∧
     (undoLastMove (makeHumanMove gameC3w 2 3).1).1.gamePhase = gameC3w.gamePhase ∧
     (undoLastMove (makeHumanMove gameC3w 2 3).1).1.currentPlayer = gameC3w.currentPlayer) :=
  ⟨by decide,
    (human_move_undo_roundtrip gameC3w 2 3 (2, 2) rfl rfl rfl (by decide)
      (makeHumanMove gameC3w 2 3).1 (by decide) (by decide)).2 (by decide)⟩

def oracleReset : MCTSOracle := ⟨fun _ => 0, fun _ => true⟩

def gamePlaced : Game := (placeStartingPosition createGame 0 0 0).1

def gameMoved : Game := (makeHumanMove gamePlaced 0 1).1

def gameBoth : Game := (makeAIMove gameMoved oracleReset 200).1

/-- C2 counterexample: a concrete placement, human move and software
move followed by undo yields phase Starting with null positions — not
the post-placement snapshot, which has phase Playing and both agents
placed. -/
theorem undo_after_move_pair_counterexample :
    gamePlaced.gamePhase = Phase.playing ∧
    gamePlaced.humanPos = some ((0 : Int), (0 : Int)) ∧
    gamePlaced.aiPos = some ((3 : Int), (3 : Int)) ∧
    gameBoth.gamePhase = Phase.playing ∧
    (undoLastMove gameBoth).2 = none ∧
    (undoLastMove gameBoth).1.gamePhase = Phase.starting ∧
    (undoLastMove gameBoth).1.humanPos = none ∧
    (undoLastMove gameBoth).1.aiPos = none := by
  decide

/-- Witness for the C2 theorem on the same concrete run. -/
theorem undo_after_move_pair_resets_witness :
    gamePlaced.moveHistory = [] ∧ undoLastMove gameBoth = (createGame, none) :=
  ⟨by decide,
    undo_after_move_pair_resets gamePlaced 0 1 oracleReset 200 (by decide)
      gameMoved (by decide) gameBoth (by decide) (by decide)⟩

def boardC10 : Board :=
  setCell (setCell (setCell (setCell (setCell initializeBoard 2 3 Cell.human) 4 4 Cell.ai)
    1 1 Cell.blocked) 2 2 Cell.blocked) 3 3 Cell.blocked

def recC10 : MoveRecord := ⟨Player.human, some (2, 2), (2, 3), initializeBoard⟩

def gameC10 : Game :=
  { board := boardC10
    humanPos := some (2, 3)
    aiPos := some ((4 : Int), (4 : Int))
    currentPlayer := Player.ai
    gamePhase := Phase.playing
    moveHistory := [⟨Player.human, some (1, 1), (2, 2), initializeBoard⟩,
      ⟨Player.ai, some (3, 3), (4, 4), initializeBoard⟩, recC10]
    winner := none }

/-- Witness for the C10 theorem at a concrete three-record session and
the untouched cell (5,5). -/
theorem undo_frame_witness :
    (undoLastMove gameC10).2 = none ∧
    (undoLastMove gameC10).1.aiPos = gameC10.aiPos ∧
    (undoLastMove gameC10).1.board 5 5 = gameC10.board 5 5 := by
  have h := undo_frame gameC10 2 recC10 (by decide) (by decide) (by decide)
  exact ⟨h.1, h.2.1,
    h.2.2.2 5 5 (by decide) (fun p hp => by cases Option.some.inj hp; decide)⟩

def oracleC8 : MCTSOracle := ⟨fun _ => (1 : ℚ) / 2, fun _ => true⟩

def movesC8 : List Pos := [(0, 1), (1, 1)]

/-- Witness for the C8 theorem: two candidates, constant evaluator. -/
theorem selection_returns_first_argmax_witness :
    ∃ (k : Nat) (hk : k < movesC8.length),
      enhancedMCTS oracleC8 movesC8 200 = movesC8.get ⟨k, hk⟩ ∧
      (∀ (j : Nat) (hj : j < movesC8.length),
        winRate (mctsFinal oracleC8 movesC8 200) (movesC8.get ⟨j, hj⟩) ≤
          winRate (mctsFinal oracleC8 movesC8 200) (movesC8.get ⟨k, hk⟩)) ∧
      ∀ (j : Nat) (hj : j < k),
        winRate (mctsFinal oracleC8 movesC8 200) (movesC8.get ⟨j, lt_trans hj hk⟩) <
          winRate (mctsFinal oracleC8 movesC8 200) (movesC8.get ⟨k, hk⟩) :=
  selection_returns_first_argmax oracleC8 movesC8 200 (by decide)
    (fun k => by norm_num [oracleC8])

/-- Witness for the C6 theorem: a human move attempted in the Starting
phase fails and leaves the fresh session unchanged. -/
theorem failed_operations_witness :
    (makeHumanMove createGame 0 0).2.isSome = true ∧
    (makeHumanMove createGame 0 0).1 = createGame :=
  ⟨by decide,
    (failed_operations_leave_session_unchanged createGame 0 0 0
      ⟨fun _ => 0, fun _ => true⟩ 200).2.1 (by decide)⟩

/-- Witness for the C7 theorem: an erroring learned strategy on the
empty board falls back to the heuristic value. -/
theorem evaluator_bounded_fallback_witness :
    (0 ≤ evaluatePosition true NNOutcome.errored initializeBoard ∧
      evaluatePosition true NNOutcome.errored initializeBoard ≤ 1) ∧
    evaluatePosition true NNOutcome.errored initializeBoard =
      heuristicEvaluation initializeBoard :=
  have h := evaluator_bounded_fallback true NNOutcome.errored initializeBoard
    (fun _ hx => nomatch hx)
  ⟨h.1, h.2 (Or.inr (Or.inl rfl))⟩

def boardC5 : Board := setCell (setCell initializeBoard 3 3 Cell.human) 3 4 Cell.ai

lemma if_patterns_trapAttempts (c : Prop) [Decidable c] (hp : HumanPatterns)
    (f : String → Nat) :
    (if c then { hp with startingPositions := f } else hp).trapAttempts = hp.trapAttempts := by
  split <;> rfl

/-- C5 (exhibiting the code bug): recordMove for a human move to the
non-edge destination (3,3), with the software agent adjacent at (3,4),
adds a trap-attempt entry keyed by the destination even though the
destination is not an edge cell: isTrapAttempt computes its isEdge flag
but never consults it, returning true whenever the software agent is
within Manhattan distance 2. -/
theorem trap_attempt_recorded_off_edge :
    isTrapAttempt (3, 3) boardC5 = true ∧
    isEdge (3, 3) = false ∧
    (recordMove initialReplay Player.human (3, 3) boardC5).humanPatterns.trapAttempts
      (encodeTrapPattern (3, 3)) = 1 := by
  refine ⟨by decide, by decide, ?_⟩
  unfold recordMove
  dsimp only
  rw [if_pos rfl]
  unfold analyzeHumanPattern
  dsimp only
  rw [if_neg (by simp)]
  rw [if_pos (show isTrapAttempt (3, 3) boardC5 = true by decide)]
  dsimp only
  unfold bump
  rw [if_pos rfl]
  rw [if_patterns_trapAttempts]
  rfl

end Isolation
